import Mathlib

/-!
Verification development for the gluish example pipelines and the task
dependency execution core they are built on.

The repository sources under scrutiny are the two example pipelines
(gutenberg.py and newspapers.py).  The execution engine itself (dependency
resolver, scheduler, Target staging, parameter defaults) is not part of the
sources; where a definition models that missing engine it is marked
"Modelled from the spec:" and follows the specification text.  Definitions
drawn from the example sources cite the file and symbol they embed.
-/

namespace Gluish

/-- A task identity: task kind plus the ordered parameter bindings.
Structural equality on this type is the deduplication criterion of the
data model section of the spec. -/
structure TaskId where
  kind : String
  params : List (String × String)
deriving DecidableEq

/-- Modelled from the spec: error taxonomy of graph construction.  The
resolver either detects a circular dependency (CycleError) or, in this
fuel-bounded embedding, runs out of fuel. -/
inductive ResolveErr where
  | cycle (t : TaskId)
  | fuelExhausted
deriving DecidableEq

/-- Fold an error-propagating expansion step over a dependency list,
threading the accumulated node list and short-circuiting on the first
error. -/
def foldSteps (f : List TaskId → TaskId → Except ResolveErr (List TaskId)) :
    List TaskId → List TaskId → Except ResolveErr (List TaskId)
  | acc, [] => Except.ok acc
  | acc, d :: ds =>
    match f acc d with
    | Except.error e => Except.error e
    | Except.ok acc1 => foldSteps f acc1 ds

/-- Modelled from the spec: the dependency resolver.  Starting from a root,
recursively expand the dependency function, inserting newly discovered
nodes keyed by identity (dedup on insert), with a visiting set detecting
cycles during the expansion.  Output is a post-order list: every node
appears after all of its dependencies.  Recursion is bounded by fuel;
fuel only decreases with the depth of the expansion. -/
def expand (req : TaskId → List TaskId) :
    Nat → List TaskId → List TaskId → TaskId → Except ResolveErr (List TaskId)
  | 0, _, _, _ => Except.error ResolveErr.fuelExhausted
  | fuel + 1, visiting, acc, t =>
    if t ∈ visiting then Except.error (ResolveErr.cycle t)
    else if t ∈ acc then Except.ok acc
    else
      match foldSteps (expand req fuel (t :: visiting)) acc (req t) with
      | Except.error e => Except.error e
      | Except.ok acc2 => Except.ok (acc2 ++ [t])

/-- Modelled from the spec: resolve the full transitive dependency graph of
a root task into a deduplicated, topologically ordered node list. -/
def resolve (req : TaskId → List TaskId) (fuel : Nat) (root : TaskId) :
    Except ResolveErr (List TaskId) :=
  expand req fuel [] [] root

/-- Terminal node states of the scheduler. -/
inductive St where
  | done
  | failed
deriving DecidableEq

/-- Lookup of a node state in the scheduler state list. -/
def findSt : List (TaskId × St) → TaskId → Option St
  | [], _ => none
  | p :: rest, t => if t = p.1 then some p.2 else findSt rest t

/-- True when an optional state is the failed state. -/
def isFailedO : Option St → Bool
  | some St.failed => true
  | _ => false

/-- True when an optional state is the done state. -/
def isDoneO : Option St → Bool
  | some St.done => true
  | _ => false

/-- Modelled from the spec: scheduling decision for a single node.  A node
depending on a failed node is marked failed without ever running; a node
whose completion predicate already holds is done without running; a node
whose dependencies are all done runs, ending done or failed according to
the outcome of its execution body.  The boolean records whether the
execution body was invoked. -/
def schedStep (complete execOk : TaskId → Bool) (req : TaskId → List TaskId)
    (st : List (TaskId × St)) (t : TaskId) : St × Bool :=
  if (req t).any (fun d => isFailedO (findSt st d)) then (St.failed, false)
  else if complete t then (St.done, false)
  else if (req t).all (fun d => isDoneO (findSt st d)) then
    ((if execOk t then St.done else St.failed), true)
  else (St.failed, false)

/-- Modelled from the spec: the scheduler walks the resolved order,
assigning each node a terminal state and collecting the list of nodes
whose execution bodies were invoked. -/
def sched (complete execOk : TaskId → Bool) (req : TaskId → List TaskId) :
    List (TaskId × St) → List TaskId → List (TaskId × St) × List TaskId
  | st, [] => (st, [])
  | st, t :: ts =>
    let p := schedStep complete execOk req st t
    let r := sched complete execOk req ((t, p.1) :: st) ts
    (r.1, (if p.2 then [t] else []) ++ r.2)

/-- Modelled from the spec: a whole run.  Resolution happens first; on a
resolution error the run aborts with no node executed, otherwise the
scheduler walks the resolved order.  The first component is the list of
nodes whose execution bodies were invoked. -/
def runPipeline (req : TaskId → List TaskId) (complete execOk : TaskId → Bool)
    (fuel : Nat) (root : TaskId) :
    List TaskId × Except ResolveErr (List (TaskId × St)) :=
  match resolve req fuel root with
  | Except.error e => ([], Except.error e)
  | Except.ok order =>
    let p := sched complete execOk req [] order
    (p.2, Except.ok p.1)

/-- One dependency edge: b is a direct requirement of a. -/
abbrev Edge (req : TaskId → List TaskId) (a b : TaskId) : Prop := b ∈ req a

/-- Reflexive-transitive reachability along dependency edges. -/
abbrev Reaches (req : TaskId → List TaskId) : TaskId → TaskId → Prop :=
  Relation.ReflTransGen (Edge req)

/-- Transitive (at least one step) dependency. -/
abbrev Depends (req : TaskId → List TaskId) : TaskId → TaskId → Prop :=
  Relation.TransGen (Edge req)

/-- A node list is topologically sorted: every direct requirement of a node
appears strictly before it. -/
def TopoS (req : TaskId → List TaskId) (l : List TaskId) : Prop :=
  ∀ pre u post, l = pre ++ u :: post → ∀ d ∈ req u, d ∈ pre

end Gluish

namespace Newspapers

open Gluish

/-- The newspaper frontpage urls from newspapers.py. -/
def NEWSPAPERS : List String :=
  ["http://bild.de/",
   "http://faz.net/",
   "http://spiegel.de/",
   "http://sueddeutsche.de/",
   "http://www.fr-online.de/",
   "http://www.lvz-online.de/",
   "http://www.nzz.ch/"]

/-- Identity of an Executable task (gluish.common) with a name parameter. -/
def executableId (name : String) : TaskId :=
  ⟨"Executable", [("name", name)]⟩

/-- Identity of a DownloadPage task: date and url parameters. -/
def downloadPageId (date url : String) : TaskId :=
  ⟨"DownloadPage", [("date", date), ("url", url)]⟩

/-- Identity of a JsonPage task: date and url parameters. -/
def jsonPageId (date url : String) : TaskId :=
  ⟨"JsonPage", [("date", date), ("url", url)]⟩

/-- Identity of an IndexPage task: date and url parameters. -/
def indexPageId (date url : String) : TaskId :=
  ⟨"IndexPage", [("date", date), ("url", url)]⟩

/-- Identity of the DailyDownload wrapper task: date parameter. -/
def dailyDownloadId (date : String) : TaskId :=
  ⟨"DailyDownload", [("date", date)]⟩

/-- Identity of the DailyIndex wrapper task: date and indicator parameters. -/
def dailyIndexId (date indicator : String) : TaskId :=
  ⟨"DailyIndex", [("date", date), ("indicator", indicator)]⟩

/-- From src/examples/newspapers.py, DailyDownload.requires: yields
DownloadPage(url=url) for each url, with no explicit date argument, so each
child carries the default date.  The default of the date parameter of
DownloadPage is daily() evaluated once when the module is loaded; that
value is the importDaily argument here.  The date of the wrapper itself is
not consulted. -/
def DailyDownload_requires (importDaily : String) (_selfDate : String) : List TaskId :=
  NEWSPAPERS.map (fun url => downloadPageId importDaily url)

/-- From src/examples/newspapers.py, DailyIndex.requires: yields
IndexPage(url=url, date=self.date) for each url, explicitly propagating the
wrapper date. -/
def DailyIndex_requires (selfDate : String) : List TaskId :=
  NEWSPAPERS.map (fun url => indexPageId selfDate url)

/-- Modelled from the spec: completion of a pure wrapper node
(luigi.WrapperTask, external to the sources) is defined purely as all of
its dependencies being complete. -/
def wrapperComplete (complete : TaskId → Bool) (deps : List TaskId) : Bool :=
  deps.all complete

/-- From src/examples/newspapers.py, DailyDownload.output: returns
self.input(), the outputs of its requirements; the wrapper derives no
target of its own. -/
def DailyDownload_output (out : TaskId → String) (importDaily selfDate : String) :
    List String :=
  (DailyDownload_requires importDaily selfDate).map out

/-- From src/examples/newspapers.py, DailyIndex.output: returns
self.input(), the outputs of its requirements; the wrapper derives no
target of its own. -/
def DailyIndex_output (out : TaskId → String) (selfDate : String) : List String :=
  (DailyIndex_requires selfDate).map out

/-- Completion of DailyDownload as a wrapper task. -/
def DailyDownload_complete (complete : TaskId → Bool) (importDaily selfDate : String) :
    Bool :=
  wrapperComplete complete (DailyDownload_requires importDaily selfDate)

/-- Completion of DailyIndex as a wrapper task. -/
def DailyIndex_complete (complete : TaskId → Bool) (selfDate : String) : Bool :=
  wrapperComplete complete (DailyIndex_requires selfDate)

/-- From src/examples/newspapers.py, DailyIndex: the indicator parameter
default is random_string() evaluated exactly once when the class body is
evaluated; within one process every construction without an explicit
indicator receives that same value (processRandom). -/
def DailyIndex_defaultIndicator (processRandom : String) : String :=
  processRandom

/-- The identity of a DailyIndex instance constructed without an explicit
indicator argument: the indicator is the process-wide default. -/
def mkDailyIndexDefault (processRandom date : String) : TaskId :=
  dailyIndexId date (DailyIndex_defaultIndicator processRandom)

/-- A json document as produced by JsonPage.run: the underscore-id field,
the page content, the url and the date. -/
structure JsonDoc where
  idField : String
  content : String
  url : String
  date : String
deriving DecidableEq

/-- From src/examples/newspapers.py, JsonPage.run: the document id is the
sha1 hexdigest of the string built by the format expression joining date
and url with a colon.  The sha1 hexdigest function is passed in
abstractly. -/
def JsonPage_docId (sha1hex : String → String) (date url : String) : String :=
  sha1hex (date ++ ":" ++ url)

/-- From src/examples/newspapers.py, JsonPage.run: the document written to
the output target. -/
def JsonPage_document (sha1hex : String → String) (date url content : String) :
    JsonDoc :=
  ⟨JsonPage_docId sha1hex date url, content, url, date⟩

/-- From src/examples/newspapers.py, IndexPage.run: the id under which the
document is indexed is the id field read back from the json document. -/
def IndexPage_indexedId (doc : JsonDoc) : String :=
  doc.idField

/-- From src/examples/newspapers.py, IndexPage.complete: the id whose
presence in the index is checked is the sha1 hexdigest of the same
date-colon-url string. -/
def IndexPage_completeId (sha1hex : String → String) (date url : String) : String :=
  sha1hex (date ++ ":" ++ url)

/-- Possible outcomes of the es.get call in IndexPage.complete: the
document is found, the store raises NotFoundError, or the call fails with
some other error (for example a connection error reaching the store). -/
inductive EsGetResult where
  | found
  | notFound
  | ioError
deriving DecidableEq

/-- From src/examples/newspapers.py, IndexPage.complete: the es.get call is
tried; a NotFoundError is caught and turned into False; a successful get
yields True; any other exception is not caught and propagates out of
complete. -/
def IndexPage_complete (store : EsGetResult) : Except String Bool :=
  match store with
  | EsGetResult.found => Except.ok true
  | EsGetResult.notFound => Except.ok false
  | EsGetResult.ioError => Except.error "ConnectionError"

end Newspapers

namespace Gutenberg

/-- A flat filesystem: an association list from paths to contents. -/
structure FS where
  files : List (String × String)
deriving DecidableEq

/-- Lookup of a path in the filesystem. -/
def fsLookup (fs : FS) (p : String) : Option String :=
  fs.files.lookup p

/-- Existence check of a path. -/
def fsExists (fs : FS) (p : String) : Bool :=
  (fsLookup fs p).isSome

/-- Write content to a path. -/
def fsWrite (fs : FS) (p c : String) : FS :=
  ⟨(p, c) :: fs.files⟩

/-- Atomic move: the content at src, when present, is placed at dst and
src is removed; when src is absent nothing changes. -/
def fsMove (fs : FS) (src dst : String) : FS :=
  match fs.files.lookup src with
  | none => fs
  | some c => ⟨(dst, c) :: (fs.files.filter (fun q => q.1 ≠ src))⟩

/-- From src/examples/gutenberg.py, GutenbergDump.run: the effect sequence
of the body.  Step one, shellout allocates a fresh temporary output and
wget writes the compressed dump there; step two, shellout allocates a
second temporary output and bunzip2 writes the extracted dump there; step
three, the second temporary file is moved onto the final target path.
Only the last step touches the final path. -/
def gutenbergDumpSteps (tmp1 tmp2 finalPath dumpContent extracted : String) :
    List (FS → FS) :=
  [fun fs => fsWrite fs tmp1 dumpContent,
   fun fs => fsWrite fs tmp2 extracted,
   fun fs => fsMove fs tmp2 finalPath]

/-- Run only the first k steps of an effect sequence: the state of the
store when execution is interrupted after k steps. -/
def applySteps (steps : List (FS → FS)) (k : Nat) (fs : FS) : FS :=
  (steps.take k).foldl (fun a f => f a) fs

end Gutenberg

namespace Fixtures

open Gluish Newspapers

/-- A concrete diamond graph from the newspapers pipeline: the daily
wrapper requires two DownloadPage tasks, each of which requires the same
Executable wget node. -/
def diamondReq : TaskId → List TaskId := fun t =>
  if t = dailyDownloadId "2015-01-01" then
    [downloadPageId "2015-01-01" "http://bild.de/",
     downloadPageId "2015-01-01" "http://faz.net/"]
  else if t.kind = "DownloadPage" then [executableId "wget"]
  else []

/-- The root of the diamond graph. -/
def diamondRoot : TaskId := dailyDownloadId "2015-01-01"

/-- The node list the resolver produces on the diamond graph. -/
def diamondOrder : List TaskId :=
  [executableId "wget",
   downloadPageId "2015-01-01" "http://bild.de/",
   downloadPageId "2015-01-01" "http://faz.net/",
   dailyDownloadId "2015-01-01"]

/-- GutenbergDump identity at a fixed weekly date. -/
def gDumpId : TaskId := ⟨"GutenbergDump", [("date", "2015-01-04")]⟩

/-- GutenbergIndexTerms identity at a fixed weekly date. -/
def gTermsId : TaskId := ⟨"GutenbergIndexTerms", [("date", "2015-01-04")]⟩

/-- GutenbergTopIndexTerms identity at a fixed weekly date. -/
def gTopId : TaskId := ⟨"GutenbergTopIndexTerms", [("date", "2015-01-04")]⟩

/-- The gutenberg dependency chain: top requires terms requires dump. -/
def gReq : TaskId → List TaskId := fun t =>
  if t = gTopId then [gTermsId]
  else if t = gTermsId then [gDumpId]
  else []

/-- The node list the resolver produces on the gutenberg chain. -/
def gOrder : List TaskId := [gDumpId, gTermsId, gTopId]

/-- First node of a two-node dependency cycle. -/
def cycA : TaskId := ⟨"CycleA", []⟩

/-- Second node of a two-node dependency cycle. -/
def cycB : TaskId := ⟨"CycleB", []⟩

/-- A cyclic dependency function: each of the two nodes requires the
other. -/
def cycReq : TaskId → List TaskId := fun t =>
  if t = cycA then [cycB] else if t = cycB then [cycA] else []

/-- A wrapper node requiring the default DailyIndex node directly. -/
def diA : TaskId := ⟨"WrapA", []⟩

/-- A second wrapper node requiring the default DailyIndex node. -/
def diB : TaskId := ⟨"WrapB", []⟩

/-- A graph in which the same default-indicator DailyIndex identity is
reached through two distinct parents. -/
def diReq : TaskId → List TaskId := fun t =>
  if t = diA then [mkDailyIndexDefault "r0" "2015-01-01", diB]
  else if t = diB then [mkDailyIndexDefault "r0" "2015-01-01"]
  else []

/-- The node list the resolver produces on the DailyIndex diamond. -/
def diOrder : List TaskId := [mkDailyIndexDefault "r0" "2015-01-01", diB, diA]

end Fixtures

namespace Gluish

variable {req : TaskId → List TaskId}

lemma foldSteps_preserve {P : List TaskId → Prop}
    {f : List TaskId → TaskId → Except ResolveErr (List TaskId)}
    (hf : ∀ acc d acc', f acc d = Except.ok acc' → P acc → P acc') :
    ∀ ds acc acc', foldSteps f acc ds = Except.ok acc' → P acc → P acc' := by
  intro ds
  induction ds with
  | nil =>
    intro acc acc' h hp
    simp only [foldSteps] at h
    cases h
    exact hp
  | cons d ds ih =>
    intro acc acc' h hp
    simp only [foldSteps] at h
    cases hfd : f acc d with
    | error e => rw [hfd] at h; cases h
    | ok acc1 =>
      rw [hfd] at h
      exact ih acc1 acc' h (hf acc d acc1 hfd hp)

lemma foldSteps_mono {f : List TaskId → TaskId → Except ResolveErr (List TaskId)}
    (hmono : ∀ acc d acc', f acc d = Except.ok acc' → acc ⊆ acc') :
    ∀ ds acc acc', foldSteps f acc ds = Except.ok acc' → acc ⊆ acc' :=
  fun ds acc acc' h =>
    foldSteps_preserve (P := fun l => acc ⊆ l)
      (fun a d a' hs hp => hp.trans (hmono a d a' hs)) ds acc acc' h
      (List.Subset.refl acc)

lemma foldSteps_mem {f : List TaskId → TaskId → Except ResolveErr (List TaskId)}
    (hmem : ∀ acc d acc', f acc d = Except.ok acc' → d ∈ acc')
    (hmono : ∀ acc d acc', f acc d = Except.ok acc' → acc ⊆ acc') :
    ∀ ds acc acc', foldSteps f acc ds = Except.ok acc' → ∀ d ∈ ds, d ∈ acc' := by
  intro ds
  induction ds with
  | nil => intro acc acc' _ d hd; cases hd
  | cons d ds ih =>
    intro acc acc' h x hx
    simp only [foldSteps] at h
    cases hfd : f acc d with
    | error e => rw [hfd] at h; cases h
    | ok acc1 =>
      rw [hfd] at h
      rcases List.mem_cons.mp hx with rfl | hx'
      · exact foldSteps_mono hmono ds acc1 acc' h (hmem acc x acc1 hfd)
      · exact ih acc1 acc' h x hx'

lemma expand_mono : ∀ fuel visiting acc t acc',
    expand req fuel visiting acc t = Except.ok acc' → acc ⊆ acc' := by
  intro fuel
  induction fuel with
  | zero =>
    intro visiting acc t acc' h
    simp only [expand] at h
    cases h
  | succ fuel ih =>
    intro visiting acc t acc' h
    simp only [expand] at h
    split at h
    · cases h
    · split at h
      · cases h
        exact List.Subset.refl acc
      · split at h
        · cases h
        · next acc2 hfold =>
            cases h
            exact (foldSteps_mono (fun a d a' hs => ih (t :: visiting) a d a' hs)
              (req t) acc acc2 hfold).trans (List.subset_append_left acc2 [t])

lemma expand_mem : ∀ fuel visiting acc t acc',
    expand req fuel visiting acc t = Except.ok acc' → t ∈ acc' := by
  intro fuel visiting acc t acc' h
  cases fuel with
  | zero => simp only [expand] at h; cases h
  | succ fuel =>
    simp only [expand] at h
    split at h
    · cases h
    · split at h
      · next ha =>
          cases h
          exact ha
      · split at h
        · cases h
        · next acc2 hfold =>
            cases h
            exact List.mem_append.mpr (Or.inr (List.mem_singleton.mpr rfl))

lemma expand_protect : ∀ fuel visiting acc t acc',
    expand req fuel visiting acc t = Except.ok acc' →
    ∀ x ∈ visiting, x ∈ acc' → x ∈ acc := by
  intro fuel
  induction fuel with
  | zero =>
    intro visiting acc t acc' h
    simp only [expand] at h
    cases h
  | succ fuel ih =>
    intro visiting acc t acc' h x hxv hx'
    simp only [expand] at h
    split at h
    · cases h
    · next hnv =>
        split at h
        · cases h
          exact hx'
        · split at h
          · cases h
          · next acc2 hfold =>
              cases h
              rcases List.mem_append.mp hx' with hx2 | hxt
              · exact foldSteps_preserve (P := fun l => x ∈ l → x ∈ acc)
                  (fun a d a' hs hp hm =>
                    hp (ih (t :: visiting) a d a' hs x (List.mem_cons_of_mem t hxv) hm))
                  (req t) acc acc2 hfold (fun hm => hm) hx2
              · have hxt' : x = t := List.mem_singleton.mp hxt
                exact absurd (hxt' ▸ hxv) hnv

lemma expand_nodup : ∀ fuel visiting acc t acc',
    expand req fuel visiting acc t = Except.ok acc' → acc.Nodup → acc'.Nodup := by
  intro fuel
  induction fuel with
  | zero =>
    intro visiting acc t acc' h
    simp only [expand] at h
    cases h
  | succ fuel ih =>
    intro visiting acc t acc' h hnd
    simp only [expand] at h
    split at h
    · cases h
    · next hnv =>
        split at h
        · next ha =>
            cases h
            exact hnd
        · next hna =>
            split at h
            · cases h
            · next acc2 hfold =>
                cases h
                have hnd2 : acc2.Nodup :=
                  foldSteps_preserve (P := List.Nodup)
                    (fun a d a' hs hp => ih (t :: visiting) a d a' hs hp)
                    (req t) acc acc2 hfold hnd
                have htacc : t ∈ acc2 → t ∈ acc :=
                  fun hm => foldSteps_preserve (P := fun l => t ∈ l → t ∈ acc)
                    (fun a d a' hs hp hm' =>
                      hp (expand_protect fuel (t :: visiting) a d a' hs t
                        (List.mem_cons_self t visiting) hm'))
                    (req t) acc acc2 hfold (fun hm' => hm') hm
                refine List.nodup_append.mpr ⟨hnd2, List.nodup_singleton t, ?_⟩
                intro x hx2 hxt
                have hxt' : x = t := List.mem_singleton.mp hxt
                subst hxt'
                exact hna (htacc hx2)

lemma topoS_nil : TopoS req [] := by
  intro pre u post heq d _
  cases pre <;> simp at heq

lemma topoS_append_singleton {l : List TaskId} {t : TaskId}
    (hl : TopoS req l) (hreq : ∀ d ∈ req t, d ∈ l) :
    TopoS req (l ++ [t]) := by
  intro pre u post heq d hd
  rcases List.eq_nil_or_concat post with rfl | ⟨post', x, rfl⟩
  · obtain ⟨h1, h2⟩ := List.append_inj' heq (by simp)
    have hut : u = t := by simpa using h2.symm
    subst hut
    exact h1 ▸ hreq d hd
  · have heq' : l ++ [t] = (pre ++ u :: post') ++ [x] := by
      rw [heq, List.concat_eq_append]
      simp
    obtain ⟨h1, _⟩ := List.append_inj' heq' (by simp)
    exact hl pre u post' h1 d hd

lemma expand_topo : ∀ fuel visiting acc t acc',
    expand req fuel visiting acc t = Except.ok acc' → TopoS req acc → TopoS req acc' := by
  intro fuel
  induction fuel with
  | zero =>
    intro visiting acc t acc' h
    simp only [expand] at h
    cases h
  | succ fuel ih =>
    intro visiting acc t acc' h htp
    simp only [expand] at h
    split at h
    · cases h
    · split at h
      · cases h
        exact htp
      · split at h
        · cases h
        · next acc2 hfold =>
            cases h
            have htp2 : TopoS req acc2 :=
              foldSteps_preserve (P := TopoS req)
                (fun a d a' hs hp => ih (t :: visiting) a d a' hs hp)
                (req t) acc acc2 hfold htp
            have hreq : ∀ d ∈ req t, d ∈ acc2 :=
              foldSteps_mem (fun a d a' hs => expand_mem fuel (t :: visiting) a d a' hs)
                (fun a d a' hs => expand_mono fuel (t :: visiting) a d a' hs)
                (req t) acc acc2 hfold
            exact topoS_append_singleton htp2 hreq

lemma foldSteps_no_fuel {f : List TaskId → TaskId → Except ResolveErr (List TaskId)}
    {D : List TaskId}
    (hf : ∀ acc d, d ∈ D → f acc d ≠ Except.error ResolveErr.fuelExhausted) :
    ∀ ds, (∀ d ∈ ds, d ∈ D) → ∀ acc,
      foldSteps f acc ds ≠ Except.error ResolveErr.fuelExhausted := by
  intro ds
  induction ds with
  | nil =>
    intro _ acc h
    simp only [foldSteps] at h
    cases h
  | cons d ds ih =>
    intro hds acc h
    simp only [foldSteps] at h
    cases hfd : f acc d with
    | error e =>
      rw [hfd] at h
      injection h with he
      exact hf acc d (hds d (List.mem_cons_self d ds)) (he ▸ hfd)
    | ok acc1 =>
      rw [hfd] at h
      exact ih (fun x hx => hds x (List.mem_cons_of_mem d hx)) acc1 h

lemma expand_no_fuel {uni : List TaskId}
    (hclosed : ∀ t ∈ uni, ∀ d ∈ req t, d ∈ uni) :
    ∀ fuel visiting acc t, visiting.Nodup → (∀ v ∈ visiting, v ∈ uni) → t ∈ uni →
      uni.length + 1 ≤ fuel + visiting.length →
      expand req fuel visiting acc t ≠ Except.error ResolveErr.fuelExhausted := by
  intro fuel
  induction fuel with
  | zero =>
    intro visiting acc t hvn hvu _ hbound h
    have hle : visiting.length ≤ uni.length := (List.Nodup.subperm hvn hvu).length_le
    omega
  | succ fuel ih =>
    intro visiting acc t hvn hvu htu hbound h
    simp only [expand] at h
    split at h
    · cases h
    · next hnv =>
        split at h
        · cases h
        · split at h
          · next e hfold =>
              injection h with he
              subst he
              refine foldSteps_no_fuel (D := req t) ?_ (req t) (fun d hd => hd) acc hfold
              intro a d hd
              refine ih (t :: visiting) a d (List.nodup_cons.mpr ⟨hnv, hvn⟩) ?_ ?_ ?_
              · intro v hv
                rcases List.mem_cons.mp hv with rfl | hv'
                · exact htu
                · exact hvu v hv'
              · exact hclosed t htu d hd
              · simp only [List.length_cons]
                omega
          · cases h

lemma resolve_nodup {fuel : Nat} {root : TaskId} {ns : List TaskId}
    (h : resolve req fuel root = Except.ok ns) : ns.Nodup :=
  expand_nodup fuel [] [] root ns h List.nodup_nil

lemma resolve_topo {fuel : Nat} {root : TaskId} {ns : List TaskId}
    (h : resolve req fuel root = Except.ok ns) : TopoS req ns :=
  expand_topo fuel [] [] root ns h topoS_nil

lemma resolve_mem_of_root {fuel : Nat} {root : TaskId} {ns : List TaskId}
    (h : resolve req fuel root = Except.ok ns) : root ∈ ns :=
  expand_mem fuel [] [] root ns h

lemma topoS_closed {l : List TaskId} (hl : TopoS req l) :
    ∀ u ∈ l, ∀ d ∈ req u, d ∈ l := by
  intro u hu d hd
  obtain ⟨pre, post, rfl⟩ := List.append_of_mem hu
  exact List.mem_append.mpr (Or.inl (hl pre u post rfl d hd))

lemma reach_stays {l : List TaskId} (hcl : ∀ u ∈ l, ∀ d ∈ req u, d ∈ l)
    {a b : TaskId} (hab : Reaches req a b) (ha : a ∈ l) : b ∈ l := by
  induction hab with
  | refl => exact ha
  | tail _ hedge ih => exact hcl _ ih _ hedge

lemma resolve_reach_mem {fuel : Nat} {root c : TaskId} {ns : List TaskId}
    (h : resolve req fuel root = Except.ok ns) (hr : Reaches req root c) : c ∈ ns :=
  reach_stays (topoS_closed (resolve_topo h)) hr (resolve_mem_of_root h)

lemma topoS_acyclic : ∀ l : List TaskId, TopoS req l → l.Nodup →
    ∀ t ∈ l, ¬ Depends req t t := by
  intro l
  induction l using List.reverseRecOn with
  | nil => intro _ _ t ht; cases ht
  | append_singleton l x ih =>
    intro htopo hnodup t ht hdep
    have htl : TopoS req l := by
      intro pre u post heq d hd
      exact htopo pre u (post ++ [x]) (by rw [heq]; simp) d hd
    have hln : l.Nodup := hnodup.of_append_left
    have hxl : x ∉ l := by
      rcases List.nodup_append.mp hnodup with ⟨_, _, hdisj⟩
      intro hx
      exact hdisj hx (List.mem_singleton.mpr rfl)
    have hcl : ∀ u ∈ l, ∀ d ∈ req u, d ∈ l := by
      intro u hu d hd
      obtain ⟨pre, post, rfl⟩ := List.append_of_mem hu
      exact List.mem_append.mpr (Or.inl (htopo pre u (post ++ [x]) (by simp) d hd))
    rcases List.mem_append.mp ht with htl' | htx
    · exact ih htl hln t htl' hdep
    · have hxt : t = x := List.mem_singleton.mp htx
      subst hxt
      have hreq : ∀ d ∈ req t, d ∈ l := fun d hd => htopo l t [] rfl d hd
      rcases Relation.TransGen.head'_iff.mp hdep with ⟨b, hedge, hreach⟩
      exact hxl (reach_stays hcl hreach (hreq b hedge))

end Gluish

namespace Gluish

lemma sched_exec_sub (c e : TaskId → Bool) (req : TaskId → List TaskId) :
    ∀ order st, (sched c e req st order).2 ⊆ order := by
  intro order
  induction order with
  | nil => intro st x hx; simp [sched] at hx
  | cons t ts ih =>
    intro st x hx
    simp only [sched] at hx
    rcases List.mem_append.mp hx with h1 | h2
    · rcases h1' : (schedStep c e req st t).2 with h | h
      · rw [h1'] at h1
        simp at h1
      · rw [h1'] at h1
        simp at h1
        exact h1 ▸ List.mem_cons_self t ts
    · exact List.mem_cons_of_mem t (ih ((t, (schedStep c e req st t).1) :: st) h2)

lemma sched_persist (c e : TaskId → Bool) (req : TaskId → List TaskId) :
    ∀ order st u, u ∉ order →
      findSt (sched c e req st order).1 u = findSt st u := by
  intro order
  induction order with
  | nil => intro st u _; simp [sched]
  | cons t ts ih =>
    intro st u hu
    have hut : u ≠ t := fun h => hu (h ▸ List.mem_cons_self t ts)
    have huts : u ∉ ts := fun h => hu (List.mem_cons_of_mem t h)
    simp only [sched]
    rw [ih ((t, (schedStep c e req st t).1) :: st) u huts]
    simp [findSt, hut]

lemma sched_assigned (c e : TaskId → Bool) (req : TaskId → List TaskId) :
    ∀ order st u, u ∈ order →
      ∃ s, findSt (sched c e req st order).1 u = some s := by
  intro order
  induction order with
  | nil => intro st u hu; cases hu
  | cons t ts ih =>
    intro st u hu
    by_cases huts : u ∈ ts
    · simp only [sched]
      exact ih ((t, (schedStep c e req st t).1) :: st) u huts
    · have hut : u = t := by
        rcases List.mem_cons.mp hu with h | h
        · exact h
        · exact absurd h huts
      subst hut
      simp only [sched]
      rw [sched_persist c e req ts ((u, (schedStep c e req st u).1) :: st) u huts]
      refine ⟨(schedStep c e req st u).1, ?_⟩
      simp [findSt]

lemma sched_append (c e : TaskId → Bool) (req : TaskId → List TaskId) :
    ∀ l₁ l₂ st,
      sched c e req st (l₁ ++ l₂) =
        ((sched c e req (sched c e req st l₁).1 l₂).1,
         (sched c e req st l₁).2 ++ (sched c e req (sched c e req st l₁).1 l₂).2) := by
  intro l₁
  induction l₁ with
  | nil => intro l₂ st; simp [sched]
  | cons t ts ih =>
    intro l₂ st
    simp only [List.cons_append, sched, List.append_eq]
    rw [ih l₂ ((t, (schedStep c e req st t).1) :: st)]
    simp [List.append_assoc]

lemma sched_all_complete (c e : TaskId → Bool) (req : TaskId → List TaskId) :
    ∀ order st, (∀ t ∈ order, c t = true) →
      (∀ r, findSt st r ≠ some St.failed) →
      (sched c e req st order).2 = [] := by
  intro order
  induction order with
  | nil => intro st _ _; simp [sched]
  | cons t ts ih =>
    intro st hall hst
    have hany : (req t).any (fun d => isFailedO (findSt st d)) = false := by
      rw [List.any_eq_false]
      intro d _
      cases hfd : findSt st d with
      | none => simp [isFailedO]
      | some s =>
        cases s with
        | done => simp [isFailedO]
        | failed => exact absurd hfd (hst d)
    have hstep : schedStep c e req st t = (St.done, false) := by
      simp [schedStep, hany, hall t (List.mem_cons_self t ts)]
    simp only [sched, hstep]
    simp only [if_neg Bool.false_ne_true, List.nil_append]
    refine ih ((t, St.done) :: st) (fun u hu => hall u (List.mem_cons_of_mem t hu)) ?_
    intro r
    simp only [findSt]
    split
    · intro hsome
      cases hsome
    · exact hst r

end Gluish

namespace Gluish

lemma sched_failed_dep (c e : TaskId → Bool) (req : TaskId → List TaskId)
    (order : List TaskId) (hnd : order.Nodup) (htp : TopoS req order)
    (b r0 : TaskId) (hb : b ∈ order) (hr0 : r0 ∈ req b)
    (hfail : findSt (sched c e req [] order).1 r0 = some St.failed) :
    b ∉ (sched c e req [] order).2 ∧
      findSt (sched c e req [] order).1 b = some St.failed := by
  obtain ⟨pre, post, rfl⟩ := List.append_of_mem hb
  obtain ⟨hpren, hconsn, hdisj⟩ := List.nodup_append.mp hnd
  have hbpre : b ∉ pre := fun hbp => hdisj hbp (List.mem_cons_self b post)
  have hbpost : b ∉ post := (List.nodup_cons.mp hconsn).1
  have hr0pre : r0 ∈ pre := htp pre b post rfl r0 hr0
  have hr0bp : r0 ∉ b :: post := fun hmem => hdisj hr0pre hmem
  obtain ⟨s, hs⟩ := sched_assigned c e req pre [] r0 hr0pre
  have happ := sched_append c e req pre (b :: post) []
  have hfin_r0 : findSt (sched c e req [] (pre ++ b :: post)).1 r0
      = findSt (sched c e req [] pre).1 r0 := by
    rw [happ]
    exact sched_persist c e req (b :: post) (sched c e req [] pre).1 r0 hr0bp
  have hsfail : findSt (sched c e req [] pre).1 r0 = some St.failed := by
    rw [← hfin_r0]
    exact hfail
  have hstep : schedStep c e req (sched c e req [] pre).1 b = (St.failed, false) := by
    have hany : (req b).any
        (fun d => isFailedO (findSt (sched c e req [] pre).1 d)) = true := by
      rw [List.any_eq_true]
      exact ⟨r0, hr0, by rw [hsfail]; rfl⟩
    simp [schedStep, hany]
  have h1' : (sched c e req (sched c e req [] pre).1 (b :: post)).1
      = (sched c e req ((b, St.failed) :: (sched c e req [] pre).1) post).1 := by
    simp [sched, hstep]
  have h2' : (sched c e req (sched c e req [] pre).1 (b :: post)).2
      = (sched c e req ((b, St.failed) :: (sched c e req [] pre).1) post).2 := by
    simp [sched, hstep]
  constructor
  · intro hmem
    rw [happ] at hmem
    rcases List.mem_append.mp hmem with hm1 | hm2
    · exact hbpre (sched_exec_sub c e req pre [] hm1)
    · rw [h2'] at hm2
      exact hbpost
        (sched_exec_sub c e req post ((b, St.failed) :: (sched c e req [] pre).1) hm2)
  · have hgoal : findSt (sched c e req [] (pre ++ b :: post)).1 b
        = findSt (sched c e req (sched c e req [] pre).1 (b :: post)).1 b := by
      rw [happ]
    rw [hgoal, h1',
      sched_persist c e req post ((b, St.failed) :: (sched c e req [] pre).1) b hbpost]
    simp [findSt]

end Gluish

open Gluish Newspapers Gutenberg Fixtures

/-- Claim C1: for every pair of task instances with the same task kind and
equal parameter bindings, the dependency resolver produces exactly one node
in the graph: every identity reachable from the root occurs exactly once in
the resolved node list, so diamond dependencies collapse into a single
entry rather than duplicating. -/
theorem dedup_yields_single_node (req : TaskId → List TaskId) (fuel : Nat)
    (root t : TaskId) (ns : List TaskId)
    (hres : resolve req fuel root = Except.ok ns)
    (hreach : Reaches req root t) :
    ns.count t = 1 :=
  List.count_eq_one_of_mem (resolve_nodup hres) (resolve_reach_mem hres hreach)

/-- Claim C1 witness: in the concrete diamond graph where two DownloadPage
nodes both require Executable wget, the resolved list contains the wget
node exactly once. -/
theorem dedup_yields_single_node_witness :
    Fixtures.diamondOrder.count (executableId "wget") = 1 :=
  dedup_yields_single_node Fixtures.diamondReq 9 Fixtures.diamondRoot
    (executableId "wget") Fixtures.diamondOrder rfl
    (Relation.ReflTransGen.head
      (show Edge Fixtures.diamondReq Fixtures.diamondRoot
          (downloadPageId "2015-01-01" "http://bild.de/") by decide)
      (Relation.ReflTransGen.single
        (show Edge Fixtures.diamondReq (downloadPageId "2015-01-01" "http://bild.de/")
            (executableId "wget") by decide)))

/-- Claim C2: for every dependency graph containing a cycle reachable from
the root, resolution fails with a cycle error, and the failure occurs
before any execution body is invoked: the run executes no node. -/
theorem cycle_error_before_any_execution (req : TaskId → List TaskId)
    (uni : List TaskId) (root : TaskId) (fuel : Nat)
    (complete execOk : TaskId → Bool)
    (hroot : root ∈ uni)
    (hclosed : ∀ t ∈ uni, ∀ d ∈ req t, d ∈ uni)
    (hfuel : uni.length + 1 ≤ fuel)
    (hcycle : ∃ c, Reaches req root c ∧ Depends req c c) :
    (∃ c, resolve req fuel root = Except.error (ResolveErr.cycle c)) ∧
      (runPipeline req complete execOk fuel root).1 = [] := by
  obtain ⟨c, hrc, hcc⟩ := hcycle
  have hnf : resolve req fuel root ≠ Except.error ResolveErr.fuelExhausted :=
    expand_no_fuel hclosed fuel [] [] root List.nodup_nil
      (fun v hv => absurd hv (List.not_mem_nil v)) hroot (by simpa using hfuel)
  cases hres : resolve req fuel root with
  | ok ns =>
    exact absurd hcc (topoS_acyclic ns (resolve_topo hres) (resolve_nodup hres) c
      (resolve_reach_mem hres hrc))
  | error e =>
    cases e with
    | fuelExhausted => exact absurd hres hnf
    | cycle c' =>
      refine ⟨⟨c', rfl⟩, ?_⟩
      simp [runPipeline, hres]

/-- Claim C2 witness: the two-node cycle fails with a cycle error and
executes nothing. -/
theorem cycle_error_before_any_execution_witness :
    (∃ c, resolve Fixtures.cycReq 3 Fixtures.cycA = Except.error (ResolveErr.cycle c)) ∧
      (runPipeline Fixtures.cycReq (fun _ => true) (fun _ => true) 3 Fixtures.cycA).1 = [] :=
  cycle_error_before_any_execution Fixtures.cycReq [Fixtures.cycA, Fixtures.cycB]
    Fixtures.cycA 3 (fun _ => true) (fun _ => true) (by decide) (by decide) (by decide)
    ⟨Fixtures.cycA, Relation.ReflTransGen.refl,
      Relation.TransGen.head
        (show Edge Fixtures.cycReq Fixtures.cycA Fixtures.cycB by decide)
        (Relation.TransGen.single
          (show Edge Fixtures.cycReq Fixtures.cycB Fixtures.cycA by decide))⟩

/-- Claim C3: if every node of the resolved graph reports complete (as
after a fully completed first run), a subsequent run invokes zero task
execution bodies. -/
theorem second_run_executes_no_bodies (req : TaskId → List TaskId)
    (complete execOk : TaskId → Bool) (fuel : Nat) (root : TaskId) (order : List TaskId)
    (hres : resolve req fuel root = Except.ok order)
    (hall : ∀ t ∈ order, complete t = true) :
    (runPipeline req complete execOk fuel root).1 = [] := by
  have hst : ∀ r : TaskId, findSt [] r ≠ some St.failed := by
    intro r
    simp [findSt]
  have h := sched_all_complete complete execOk req order [] hall hst
  simp only [runPipeline, hres]
  exact h

/-- Claim C3 witness: on the gutenberg chain with every completion
predicate true, the run executes nothing. -/
theorem second_run_executes_no_bodies_witness :
    (runPipeline Fixtures.gReq (fun _ => true) (fun _ => true) 9 Fixtures.gTopId).1 = [] :=
  second_run_executes_no_bodies Fixtures.gReq (fun _ => true) (fun _ => true) 9
    Fixtures.gTopId Fixtures.gOrder rfl (fun _ _ => rfl)

/-- Claim C4: in the staging discipline of GutenbergDump.run, if execution
is interrupted after any prefix of the effect sequence that stops short of
the final move, the final target path still does not exist: an interrupted
write is never observable as complete. -/
theorem interrupted_staging_leaves_target_absent
    (fs : FS) (tmp1 tmp2 finalPath c1 c2 : String) (k : Nat)
    (hk : k ≤ 2) (h1 : tmp1 ≠ finalPath) (h2 : tmp2 ≠ finalPath)
    (h0 : fsExists fs finalPath = false) :
    fsExists (applySteps (gutenbergDumpSteps tmp1 tmp2 finalPath c1 c2) k fs)
      finalPath = false := by
  have hw : ∀ (g : FS) (q c : String), q ≠ finalPath →
      fsExists g finalPath = false → fsExists (fsWrite g q c) finalPath = false := by
    intro g q c hne hg
    simp only [fsExists, fsLookup, fsWrite] at hg ⊢
    rw [List.lookup_cons]
    have hbeq : (finalPath == q) = false := beq_eq_false_iff_ne.mpr (fun h => hne h.symm)
    rw [hbeq]
    exact hg
  interval_cases k
  · simpa [applySteps, gutenbergDumpSteps] using h0
  · simpa [applySteps, gutenbergDumpSteps] using hw fs tmp1 c1 h1 h0
  · simpa [applySteps, gutenbergDumpSteps] using
      hw (fsWrite fs tmp1 c1) tmp2 c2 h2 (hw fs tmp1 c1 h1 h0)

/-- Claim C4 witness: interrupting the concrete dump pipeline after both
temporary writes but before the final move leaves the final path absent. -/
theorem interrupted_staging_leaves_target_absent_witness :
    fsExists
      (applySteps (gutenbergDumpSteps "tmp-one" "tmp-two" "final.mrc" "dump" "mrc") 2 ⟨[]⟩)
      "final.mrc" = false :=
  interrupted_staging_leaves_target_absent ⟨[]⟩ "tmp-one" "tmp-two" "final.mrc"
    "dump" "mrc" 2 (by decide) (by decide) (by decide) rfl

/-- Claim C5: if a node a on which b transitively depends ends in the
failed state, then b is never executed (never enters running) and b ends
in the failed state as well. -/
theorem failed_dependency_blocks_dependent (req : TaskId → List TaskId)
    (complete execOk : TaskId → Bool) (fuel : Nat) (root : TaskId)
    (order : List TaskId) (a b : TaskId)
    (hres : resolve req fuel root = Except.ok order)
    (hb : b ∈ order) (hdep : Depends req b a)
    (hfail : findSt (sched complete execOk req [] order).1 a = some St.failed) :
    b ∉ (sched complete execOk req [] order).2 ∧
      findSt (sched complete execOk req [] order).1 b = some St.failed := by
  have hnd := resolve_nodup hres
  have htp := resolve_topo hres
  have hcl := topoS_closed htp
  revert hfail
  induction hdep with
  | @single x h =>
    exact fun hf => sched_failed_dep complete execOk req order hnd htp b x hb h hf
  | @tail m a' h1 h2 ih =>
    intro hf
    have hmmem : m ∈ order := reach_stays hcl h1.to_reflTransGen hb
    exact ih ((sched_failed_dep complete execOk req order hnd htp m a' hmmem h2 hf).2)

/-- Claim C5 witness: on the gutenberg chain where the dump task fails,
the top task is never executed and ends failed. -/
theorem failed_dependency_blocks_dependent_witness :
    Fixtures.gTopId ∉
        (sched (fun _ => false) (fun _ => false) Fixtures.gReq [] Fixtures.gOrder).2 ∧
      findSt (sched (fun _ => false) (fun _ => false) Fixtures.gReq [] Fixtures.gOrder).1
        Fixtures.gTopId = some St.failed :=
  failed_dependency_blocks_dependent Fixtures.gReq (fun _ => false) (fun _ => false) 9
    Fixtures.gTopId Fixtures.gOrder Fixtures.gDumpId Fixtures.gTopId rfl (by decide)
    (Relation.TransGen.tail
      (Relation.TransGen.single
        (show Edge Fixtures.gReq Fixtures.gTopId Fixtures.gTermsId by decide))
      (show Edge Fixtures.gReq Fixtures.gTermsId Fixtures.gDumpId by decide))
    rfl

/-- Claim C6 counterexample: IndexPage.complete does not return false on
every store error; on an error other than NotFoundError (for example a
connection error) the exception propagates instead of yielding false. -/
theorem indexpage_complete_raises_on_io_error :
    IndexPage_complete EsGetResult.ioError = Except.error "ConnectionError" ∧
      IndexPage_complete EsGetResult.ioError ≠ Except.ok false :=
  ⟨rfl, fun h => Except.noConfusion h⟩

/-- Claim C6 amended: IndexPage.complete returns false exactly when the
store raises NotFoundError and true exactly when the document is found;
any other I/O error propagates as an exception out of the completion
check. -/
theorem indexpage_complete_amended (r : EsGetResult) :
    (IndexPage_complete r = Except.ok false ↔ r = EsGetResult.notFound) ∧
    (IndexPage_complete r = Except.ok true ↔ r = EsGetResult.found) ∧
    (IndexPage_complete r = Except.error "ConnectionError" ↔ r = EsGetResult.ioError) := by
  cases r <;> simp [IndexPage_complete]

/-- Claim C7: the wrapper tasks DailyDownload and DailyIndex yield no
target of their own (every output they report is the output of one of
their dependencies), and their completion is exactly the conjunction of
the completion of their dependencies. -/
theorem wrapper_output_and_completion (out : TaskId → String) (complete : TaskId → Bool)
    (importDaily selfDate : String) :
    (∀ tgt ∈ DailyDownload_output out importDaily selfDate,
        ∃ dep ∈ DailyDownload_requires importDaily selfDate, out dep = tgt) ∧
    (∀ tgt ∈ DailyIndex_output out selfDate,
        ∃ dep ∈ DailyIndex_requires selfDate, out dep = tgt) ∧
    (DailyDownload_complete complete importDaily selfDate = true ↔
        ∀ dep ∈ DailyDownload_requires importDaily selfDate, complete dep = true) ∧
    (DailyIndex_complete complete selfDate = true ↔
        ∀ dep ∈ DailyIndex_requires selfDate, complete dep = true) := by
  refine ⟨?_, ?_, ?_, ?_⟩
  · intro tgt htgt
    rcases List.mem_map.mp htgt with ⟨dep, hdep, rfl⟩
    exact ⟨dep, hdep, rfl⟩
  · intro tgt htgt
    rcases List.mem_map.mp htgt with ⟨dep, hdep, rfl⟩
    exact ⟨dep, hdep, rfl⟩
  · simp [DailyDownload_complete, wrapperComplete]
  · simp [DailyIndex_complete, wrapperComplete]

/-- Claim C8: the id under which IndexPage.run indexes the document (the
id field written by JsonPage.run) is exactly the id IndexPage.complete
checks in the index; both are the sha1 hexdigest of the date-colon-url
string. -/
theorem indexed_id_matches_complete_id (sha1hex : String → String)
    (date url content : String) :
    IndexPage_indexedId (JsonPage_document sha1hex date url content) =
        IndexPage_completeId sha1hex date url ∧
      IndexPage_completeId sha1hex date url = sha1hex (date ++ ":" ++ url) :=
  ⟨rfl, rfl⟩

/-- Claim C9: the requirements of DailyDownload are independent of the
wrapper date and carry the module-load default date, while the
requirements of DailyIndex carry the wrapper date itself. -/
theorem daily_download_date_not_propagated (importDaily d d' : String) :
    DailyDownload_requires importDaily d = DailyDownload_requires importDaily d' ∧
    (∀ c ∈ DailyDownload_requires importDaily d,
        c.params.lookup "date" = some importDaily) ∧
    (∀ c ∈ DailyIndex_requires d, c.params.lookup "date" = some d) := by
  refine ⟨rfl, ?_, ?_⟩
  · intro c hc
    rcases List.mem_map.mp hc with ⟨url, _, rfl⟩
    rfl
  · intro c hc
    rcases List.mem_map.mp hc with ⟨url, _, rfl⟩
    rfl

/-- Claim C10: two DailyIndex instances constructed without an explicit
indicator have equal identity exactly when they share the process-wide
default indicator value and the date; within one process equal dates give
equal identity and the resolver keeps at most one such node, while
distinct processes (distinct random defaults) give distinct identities. -/
theorem daily_index_default_indicator_identity (p p' d d' : String)
    (req : TaskId → List TaskId) (fuel : Nat) (root : TaskId) (ns : List TaskId) :
    (mkDailyIndexDefault p d = mkDailyIndexDefault p' d' ↔ (p = p' ∧ d = d')) ∧
    (resolve req fuel root = Except.ok ns → ns.count (mkDailyIndexDefault p d) ≤ 1) := by
  constructor
  · constructor
    · intro h
      simp only [mkDailyIndexDefault, dailyIndexId, DailyIndex_defaultIndicator,
        TaskId.mk.injEq, List.cons.injEq, Prod.mk.injEq, true_and, and_true] at h
      exact ⟨h.2, h.1⟩
    · rintro ⟨rfl, rfl⟩
      rfl
  · intro hres
    exact List.nodup_iff_count_le_one.mp (resolve_nodup hres) (mkDailyIndexDefault p d)

/-- Claim C10 witness: in the concrete graph where two wrappers require
the same default-indicator DailyIndex identity, the resolved list holds
it at most once. -/
theorem daily_index_default_indicator_identity_witness :
    Fixtures.diOrder.count (mkDailyIndexDefault "r0" "2015-01-01") ≤ 1 :=
  (daily_index_default_indicator_identity "r0" "r0" "2015-01-01" "2015-01-01"
    Fixtures.diReq 9 Fixtures.diA Fixtures.diOrder).2 rfl
